import Mathlib

namespace Mlrust

noncomputable section

/-- Shallow embedding of a 2-dimensional numeric array (ndarray Array2 of f32),
with floating-point numbers modelled as real numbers: a shape together with a
total entry function. Claims are stated about entries at in-bounds indices. -/
structure Mat where
  rows : ℕ
  cols : ℕ
  entry : ℕ → ℕ → ℝ

/-- All-zero array of the given shape (Array2::zeros). -/
def Mat.zeros (r c : ℕ) : Mat := ⟨r, c, fun _ _ => 0⟩

/-- All-one array of the given shape (Array2::ones). -/
def Mat.ones (r c : ℕ) : Mat := ⟨r, c, fun _ _ => 1⟩

/-- Matrix transpose (ndarray .t()). -/
def Mat.t (A : Mat) : Mat := ⟨A.cols, A.rows, fun i j => A.entry j i⟩

/-- Matrix product (ndarray .dot()): entry (i,j) is the sum over the left
operand's column index of products; the engine applies it only to
inner-dimension-compatible operands. -/
def Mat.dot (A B : Mat) : Mat :=
  ⟨A.rows, B.cols, fun i j => (Finset.range A.cols).sum fun k => A.entry i k * B.entry k j⟩

/-- Elementwise sum (ndarray + on equal-shape operands). -/
def Mat.hadd (A B : Mat) : Mat := ⟨A.rows, A.cols, fun i j => A.entry i j + B.entry i j⟩

/-- Elementwise difference (ndarray - on equal-shape operands). -/
def Mat.hsub (A B : Mat) : Mat := ⟨A.rows, A.cols, fun i j => A.entry i j - B.entry i j⟩

/-- Elementwise (Hadamard) product (ndarray * on equal-shape operands). -/
def Mat.hmul (A B : Mat) : Mat := ⟨A.rows, A.cols, fun i j => A.entry i j * B.entry i j⟩

/-- Scalar multiple (ndarray scalar multiplication). -/
def Mat.smul (c : ℝ) (A : Mat) : Mat := ⟨A.rows, A.cols, fun i j => c * A.entry i j⟩

/-- Apply a function to every element, keeping the shape. -/
def Mat.map (f : ℝ → ℝ) (A : Mat) : Mat := ⟨A.rows, A.cols, fun i j => f (A.entry i j)⟩

/-- Modelled from the spec: math_utils::sigf (module math_utils is not under
src/), the sigmoid function 1 / (1 + e^-x). -/
def sigf (x : ℝ) : ℝ := 1 / (1 + Real.exp (-x))

/-- Modelled from the spec: math_utils::sigf_prime (module math_utils is not
under src/), the sigmoid derivative sigmoid(x) * (1 - sigmoid(x)). -/
def sigf_prime (x : ℝ) : ℝ := sigf x * (1 - sigf x)

/-- Embedding of array_utils::add (src/src/array_utils.rs lines 14-27): on a
shape mismatch the code panics (modelled as none); otherwise it allocates a
zero array of the left operand's shape and writes the elementwise sum at every
in-bounds index. -/
def add (lhs rhs : Mat) : Option Mat :=
  if lhs.rows = rhs.rows ∧ lhs.cols = rhs.cols then
    some ⟨lhs.rows, lhs.cols, fun i j =>
      if i < lhs.rows ∧ j < lhs.cols then lhs.entry i j + rhs.entry i j else 0⟩
  else none

/-- Embedding of array_utils::sig (src/src/array_utils.rs lines 34-38): the
loop body computes math_utils::sigf(*element) but never writes the result back
(contrast randomize_array, which uses assign_elem, and range_fill_offset,
which assigns through the iterator), so the array is left unchanged. -/
def sig_inplace (arr : Mat) : Mat := arr

/-- Modelled from the spec: array_utils::math::sig, the functional elementwise
sigmoid the network engine calls (module array_utils::math is not under src/):
applies 1 / (1 + e^-x) to every element. -/
def mathSig (A : Mat) : Mat := A.map sigf

/-- Modelled from the spec: array_utils::math::sig_prime (module
array_utils::math is not under src/): applies the sigmoid first derivative,
evaluated at the pre-activation value, to every element. -/
def mathSigPrime (A : Mat) : Mat := A.map sigf_prime

/-- Embedding of mlrust::NeuralNetworkLayer. -/
structure NeuralNetworkLayer where
  weights : Mat
  biases : Mat

/-- Embedding of NeuralNetworkLayer::new: zero weights of shape
(neurons × inputs) and all-one biases of shape (neurons × 1). -/
def NeuralNetworkLayer.new (inputs neurons : ℕ) : NeuralNetworkLayer :=
  ⟨Mat.zeros neurons inputs, Mat.ones neurons 1⟩

/-- Embedding of mlrust::NeuralNetwork. -/
structure NeuralNetwork where
  input_neurons : ℕ
  output_neurons : ℕ
  hidden_layer_sizes : List ℕ
  layers : List NeuralNetworkLayer
  learning_rate : ℝ

/-- Embedding of NeuralNetwork::init_network_layers: chain the widths
layer_inputs -> hidden sizes -> output_neurons, pushing one layer per step. -/
def init_layers (layer_inputs : ℕ) (hidden : List ℕ) (output_neurons : ℕ) :
    List NeuralNetworkLayer :=
  match hidden with
  | [] => [NeuralNetworkLayer.new layer_inputs output_neurons]
  | h :: t => NeuralNetworkLayer.new layer_inputs h :: init_layers h t output_neurons

/-- Embedding of array_utils::randomize_array: the independent uniform random
draws are modelled by an arbitrary value oracle; the shape is preserved. -/
def randomize_mat (vals : ℕ → ℕ → ℝ) (A : Mat) : Mat := ⟨A.rows, A.cols, vals⟩

/-- Embedding of NeuralNetwork::randomize_weights_and_biases, with one value
oracle per layer index for the weights and one for the biases. -/
def randomize_layers (rngW rngB : ℕ → ℕ → ℕ → ℝ) (layers : List NeuralNetworkLayer) :
    List NeuralNetworkLayer :=
  layers.mapIdx fun i L =>
    NeuralNetworkLayer.mk (randomize_mat (rngW i) L.weights) (randomize_mat (rngB i) L.biases)

/-- Embedding of NeuralNetwork::new: build the layer chain, then overwrite
every weight and bias with random values (modelled by the oracles);
learning_rate takes LEARNING_RATE_DEFAULT = 1.0. -/
def NeuralNetwork.new (rngW rngB : ℕ → ℕ → ℕ → ℝ) (input_neurons output_neurons : ℕ)
    (hidden_layer_sizes : List ℕ) : NeuralNetwork :=
  { input_neurons := input_neurons
    output_neurons := output_neurons
    hidden_layer_sizes := hidden_layer_sizes
    layers := randomize_layers rngW rngB (init_layers input_neurons hidden_layer_sizes output_neurons)
    learning_rate := 1 }

/-- Default array used with List.getD. -/
def dM : Mat := Mat.zeros 0 0

/-- Default layer used with List.getD. -/
def dL : NeuralNetworkLayer := ⟨dM, dM⟩

/-- Embedding of NeuralNetwork::from: asserts weights.len() == biases.len()
and indexes weights[0] and weights[weights.len()-1], so the list must be
nonempty (assertion or index failure is modelled as none). input_neurons is
weights[0].dim().1, the first weight matrix's column count; output_neurons is
weights[weights.len()-1].dim().1, the last weight matrix's COLUMN count
(source line 52). One layer per weight/bias pair; hidden_layer_sizes is left
empty. -/
def NeuralNetwork.fromWB (weights biases : List Mat) : Option NeuralNetwork :=
  if weights.length = biases.length ∧ weights.length ≠ 0 then
    some { input_neurons := (weights.headD dM).cols
           output_neurons := (weights.getLastD dM).cols
           hidden_layer_sizes := []
           layers := List.zipWith NeuralNetworkLayer.mk weights biases
           learning_rate := 1 }
  else none

/-- One layer of the forward pass: activation := sigmoid(W ⬝ activation + b). -/
def forward_step (a : Mat) (L : NeuralNetworkLayer) : Mat :=
  mathSig ((L.weights.dot a).hadd L.biases)

/-- Embedding of NeuralNetwork::feed_forward (the ColumnVector collaborator is
the identity on the underlying matrix). -/
def NeuralNetwork.feed_forward (nn : NeuralNetwork) (inputs : Mat) : Mat :=
  nn.layers.foldl forward_step inputs

/-- Embedding of NeuralNetwork::calculate_cost: expected - output. -/
def calculate_cost (expected output : Mat) : Mat := expected.hsub output

/-- Embedding of NeuralNetwork::back_prop_recursive over the list of layers
from layer_index onward, returning (weight adjustments, bias adjustments,
value returned to the caller). Base case (past the last layer): return
calculate_cost expected x. Each frame computes z = W ⬝ x + b and
result = sigmoid z, recurses with result, forms delta = error ⊙
sigmoid_prime z, prepends delta ⬝ xᵗ to the weight adjustments and delta to
the bias adjustments, and returns Wᵗ ⬝ error — the source (line 182) applies
the transpose to error, not to delta. -/
def back_prop_rec (layers : List NeuralNetworkLayer) (x expected : Mat) :
    List Mat × List Mat × Mat :=
  match layers with
  | [] => ([], [], calculate_cost expected x)
  | L :: rest =>
    let z := (L.weights.dot x).hadd L.biases
    let result := mathSig z
    let r := back_prop_rec rest result expected
    let delta := r.2.2.hmul (mathSigPrime z)
    (delta.dot x.t :: r.1, delta :: r.2.1, L.weights.t.dot r.2.2)

/-- Embedding of NeuralNetwork::back_propagate: run the recursion over all
layers starting from index 0 and return the two adjustment lists. -/
def NeuralNetwork.back_propagate (nn : NeuralNetwork) (input expected : Mat) :
    List Mat × List Mat :=
  ((back_prop_rec nn.layers input expected).1, (back_prop_rec nn.layers input expected).2.1)

/-- Embedding of NeuralNetwork::init_zeroed_adjustment_matrices: one zero
matrix per layer, matching the layer's weight and bias shapes. -/
def init_zeroed_adjustment_matrices (nn : NeuralNetwork) : List Mat × List Mat :=
  (nn.layers.map fun L => Mat.zeros L.weights.rows L.weights.cols,
   nn.layers.map fun L => Mat.zeros L.biases.rows L.biases.cols)

/-- One iteration of train's accumulation loop: run back_propagate on one
example pair and add its per-layer adjustments into the accumulators
(ndarray +=, elementwise on equal shapes). -/
def accumulate_step (nn : NeuralNetwork) (acc : List Mat × List Mat) (p : Mat × Mat) :
    List Mat × List Mat :=
  (List.zipWith Mat.hadd acc.1 (nn.back_propagate p.1 p.2).1,
   List.zipWith Mat.hadd acc.2 (nn.back_propagate p.1 p.2).2)

/-- Embedding of NeuralNetwork::add_weights_and_biases: for each layer index i,
weights := weights - (1/number_of_examples) * weight_adjustments[i], and
likewise for biases. The source loop indexes adjustment vectors whose length
equals the layer list's length; train always calls it that way. -/
def add_weights_and_biases :
    List NeuralNetworkLayer → List Mat → List Mat → ℝ → List NeuralNetworkLayer
  | L :: ls, w :: ws, b :: bs, n =>
    NeuralNetworkLayer.mk (L.weights.hsub (Mat.smul (1 / n) w))
        (L.biases.hsub (Mat.smul (1 / n) b))
      :: add_weights_and_biases ls ws bs n
  | _, _, _, _ => []

/-- Embedding of NeuralNetwork::train: assert equal input/expected lengths
(failure modelled as none, the network unchanged), accumulate back-propagation
adjustments over the whole batch into zeroed accumulators, then apply a single
update scaled by 1/number_of_examples. -/
def NeuralNetwork.train (nn : NeuralNetwork) (inputs expected_outputs : List Mat) :
    Option NeuralNetwork :=
  if inputs.length = expected_outputs.length then
    let acc := (inputs.zip expected_outputs).foldl (accumulate_step nn)
      (init_zeroed_adjustment_matrices nn)
    some { nn with layers :=
      add_weights_and_biases nn.layers acc.1 acc.2 (inputs.length : ℝ) }
  else none

/-- Constant array of the given shape, used for concrete test inputs. -/
def cMat (r c : ℕ) (v : ℝ) : Mat := ⟨r, c, fun _ _ => v⟩

/-- Shape of a layer: ((weight rows, weight cols), (bias rows, bias cols)). -/
def layer_shape (L : NeuralNetworkLayer) : (ℕ × ℕ) × (ℕ × ℕ) :=
  ((L.weights.rows, L.weights.cols), (L.biases.rows, L.biases.cols))

/-- A concrete one-layer network (weights [[1]], biases [[1]]) for witnesses. -/
def nnA : NeuralNetwork := ⟨1, 1, [], [⟨cMat 1 1 1, cMat 1 1 1⟩], 1⟩

/-- A concrete one-layer network with zero weights and zero biases. -/
def nnZ : NeuralNetwork := ⟨1, 1, [], [⟨Mat.zeros 1 1, Mat.zeros 1 1⟩], 1⟩

/-- A concrete layer (weights [[1]], biases [[-1/2]]) chosen so that its
pre-activation at input [[1/2]] is exactly 0. -/
def cexLayer : NeuralNetworkLayer := ⟨cMat 1 1 1, cMat 1 1 (-(1 / 2))⟩

/-- C7: for equal-shape arrays, add returns an array of the same shape whose
every in-bounds element is the elementwise sum; for differing shapes, add
fails (panic, modelled as none). -/
theorem add_elementwise_sum_or_fail (A B : Mat) :
    (A.rows = B.rows ∧ A.cols = B.cols →
      ∃ C, add A B = some C ∧ C.rows = A.rows ∧ C.cols = A.cols ∧
        ∀ i j, i < A.rows → j < A.cols → C.entry i j = A.entry i j + B.entry i j) ∧
    (¬(A.rows = B.rows ∧ A.cols = B.cols) → add A B = none) := by
  constructor
  · intro h
    refine ⟨⟨A.rows, A.cols, fun i j =>
      if i < A.rows ∧ j < A.cols then A.entry i j + B.entry i j else 0⟩, ?_, rfl, rfl, ?_⟩
    · simp [add, h]
    · intro i j hi hj
      simp [hi, hj]
  · intro h
    simp [add, h]

/-- Witness for C7 at A = [[2]], B = [[3]]. -/
theorem add_elementwise_sum_or_fail_witness :
    ∃ C, add (cMat 1 1 2) (cMat 1 1 3) = some C ∧ C.rows = 1 ∧ C.cols = 1 ∧
      ∀ i j, i < 1 → j < 1 → C.entry i j = (cMat 1 1 2).entry i j + (cMat 1 1 3).entry i j :=
  (add_elementwise_sum_or_fail (cMat 1 1 2) (cMat 1 1 3)).1 ⟨rfl, rfl⟩

/-- C2 (code bug): array_utils::sig leaves every array unchanged, because the
loop computes the sigmoid of each element and discards the result; the claimed
behaviour would set the element 0 to sigmoid 0 = 1/2, not 0. -/
theorem sig_inplace_is_noop :
    (∀ A : Mat, sig_inplace A = A) ∧
    (sig_inplace (cMat 1 1 0)).entry 0 0 = 0 ∧
    sigf 0 = 1 / 2 ∧ ((0 : ℝ) ≠ 1 / 2) := by
  refine ⟨fun A => rfl, rfl, ?_, by norm_num⟩
  unfold sigf
  rw [neg_zero, Real.exp_zero]
  norm_num

/-- C3 (code bug): from derives output_neurons from the COLUMN count of the
last weight matrix (dim().1), so for a single 2×1 weight matrix the network
reports output_neurons = 1 while the last weight matrix has 2 rows; the
input_neurons part (column count of the first weight matrix) does hold. -/
theorem fromWB_output_neurons_is_column_count :
    ∃ nn, NeuralNetwork.fromWB [cMat 2 1 1] [cMat 2 1 0] = some nn ∧
      nn.output_neurons = 1 ∧ (cMat 2 1 1).rows = 2 ∧ nn.input_neurons = 1 := by
  refine ⟨_, rfl, rfl, rfl, rfl⟩

/-- C4: for a single-layer network the recursion's terminal value is
calculate_cost expected actual = expected - actual, and back_propagate's
weight adjustment is ((expected - sigmoid(W·x+b)) ⊙ sigmoid_prime(W·x+b)) · xᵗ
(with the bias adjustment the same delta). -/
theorem single_layer_back_propagate (ni no : ℕ) (hs : List ℕ) (lr : ℝ) (W b x e : Mat) :
    (∀ y z : Mat, (back_prop_rec [] y z).2.2 = calculate_cost z y) ∧
    NeuralNetwork.back_propagate ⟨ni, no, hs, [⟨W, b⟩], lr⟩ x e =
      ([((e.hsub (mathSig ((W.dot x).hadd b))).hmul (mathSigPrime ((W.dot x).hadd b))).dot x.t],
       [(e.hsub (mathSig ((W.dot x).hadd b))).hmul (mathSigPrime ((W.dot x).hadd b))]) :=
  ⟨fun _ _ => rfl, rfl⟩

/-- C6: train with input and expected-output sequences of unequal length fails
the length assertion before any update, so no updated network is produced and
the layers are unchanged. -/
theorem train_length_mismatch_fails (nn : NeuralNetwork) (inputs expected_outputs : List Mat)
    (h : inputs.length ≠ expected_outputs.length) :
    nn.train inputs expected_outputs = none := by
  simp [NeuralNetwork.train, h]

/-- Witness for C6: one input, no expected outputs. -/
theorem train_length_mismatch_fails_witness :
    NeuralNetwork.train nnA [cMat 1 1 0] [] = none :=
  train_length_mismatch_fails nnA [cMat 1 1 0] [] (by simp)

/-- C8: a network built via new with no hidden layers has exactly one layer of
weight shape (output_neurons × input_neurons); with hidden sizes [h1, h2] it
has exactly three layers of weight shapes (h1 × input_neurons), (h2 × h1),
(output_neurons × h2); every layer's biases have the layer's weight row count
and one column. Random initialization (any oracle) preserves the shapes. -/
theorem new_network_layer_shapes (rngW rngB : ℕ → ℕ → ℕ → ℝ) (ni no h1 h2 : ℕ) :
    ((NeuralNetwork.new rngW rngB ni no []).layers.map layer_shape
      = [((no, ni), (no, 1))]) ∧
    ((NeuralNetwork.new rngW rngB ni no [h1, h2]).layers.map layer_shape
      = [((h1, ni), (h1, 1)), ((h2, h1), (h2, 1)), ((no, h2), (no, 1))]) := by
  constructor <;> rfl

/-- Folding the forward pass over any nonempty layer list whose weights are
all zero and whose bias entries all equal b yields sigf b at every entry,
whatever the starting activation. -/
theorem forward_fold_const (b : ℝ) :
    ∀ (layers : List NeuralNetworkLayer) (a : Mat),
      layers ≠ [] →
      (∀ L ∈ layers, (∀ i j, L.weights.entry i j = 0) ∧ (∀ i j, L.biases.entry i j = b)) →
      ∀ i j, (layers.foldl forward_step a).entry i j = sigf b
  | [], _, hne, _ => absurd rfl hne
  | L :: rest, a, _, hall => by
    intro i j
    have hL := hall L (List.mem_cons_self L rest)
    cases rest with
    | nil =>
      show sigf (((Finset.range L.weights.cols).sum fun k =>
        L.weights.entry i k * a.entry k j) + L.biases.entry i j) = sigf b
      have hsum : ((Finset.range L.weights.cols).sum fun k =>
          L.weights.entry i k * a.entry k j) = 0 :=
        Finset.sum_eq_zero fun k _ => by rw [hL.1 i k, zero_mul]
      rw [hsum, hL.2 i j, zero_add]
    | cons L2 rest2 =>
      exact forward_fold_const b (L2 :: rest2) (forward_step a L) (by simp)
        (fun M hM => hall M (List.mem_cons_of_mem L hM)) i j

/-- C9: feed_forward on a network whose weights are all zero and whose bias
entries all equal b yields sigmoid b at every output entry, independent of the
input. -/
theorem feed_forward_zero_weights (nn : NeuralNetwork) (b : ℝ) (x : Mat)
    (hne : nn.layers ≠ [])
    (hzw : ∀ L ∈ nn.layers, ∀ i j, L.weights.entry i j = 0)
    (hcb : ∀ L ∈ nn.layers, ∀ i j, L.biases.entry i j = b) :
    ∀ i j, (nn.feed_forward x).entry i j = sigf b :=
  forward_fold_const b nn.layers x hne (fun L hL => ⟨hzw L hL, hcb L hL⟩)

/-- Witness for C9: the one-layer all-zero network on input [[7]] outputs
sigmoid 0 at entry (0,0). -/
theorem feed_forward_zero_weights_witness :
    (NeuralNetwork.feed_forward nnZ (cMat 1 1 7)).entry 0 0 = sigf 0 :=
  feed_forward_zero_weights nnZ 0 (cMat 1 1 7) (by simp [nnZ])
    (by intro L hL i j; simp [nnZ] at hL; rw [hL]; rfl)
    (by intro L hL i j; simp [nnZ] at hL; rw [hL]; rfl) 0 0

/-- C1 (code bug): with the single layer cexLayer (weights [[1]], biases
[[-1/2]]), input [[1/2]] and expected [[1]], the value back_prop_recursive
returns to the layer below is Wᵗ · error = [[1/2]], whereas Wᵗ · delta — with
delta = (expected - sigmoid z) ⊙ sigmoid_prime z exactly as the code computes
it — is [[1/8]]; the two differ, so the propagated signal is not Wᵗ · delta. -/
theorem back_prop_propagates_error_not_delta :
    (back_prop_rec [cexLayer] (cMat 1 1 (1 / 2)) (cMat 1 1 1)).2.2.entry 0 0 = 1 / 2 ∧
    ((cexLayer.weights.t).dot
      (((cMat 1 1 1).hsub
          (mathSig ((cexLayer.weights.dot (cMat 1 1 (1 / 2))).hadd cexLayer.biases))).hmul
        (mathSigPrime ((cexLayer.weights.dot (cMat 1 1 (1 / 2))).hadd cexLayer.biases)))).entry 0 0
      = 1 / 8 ∧
    ((1 : ℝ) / 2 ≠ 1 / 8) := by
  have hz : (1 : ℝ) * (1 / 2) + -(1 / 2) = 0 := by norm_num
  have hs0 : sigf 0 = 1 / 2 := by
    unfold sigf
    rw [neg_zero, Real.exp_zero]
    norm_num
  have hsp0 : sigf_prime 0 = 1 / 4 := by
    unfold sigf_prime
    rw [hs0]
    norm_num
  refine ⟨?_, ?_, by norm_num⟩
  · show ((cexLayer.weights.t).dot
        ((cMat 1 1 1).hsub
          (mathSig ((cexLayer.weights.dot (cMat 1 1 (1 / 2))).hadd cexLayer.biases)))).entry 0 0
      = 1 / 2
    simp only [cexLayer, cMat, Mat.dot, Mat.t, Mat.hsub, mathSig, Mat.map, Mat.hadd,
      Finset.sum_range_one]
    rw [hz, hs0]
    norm_num
  · simp only [cexLayer, cMat, Mat.dot, Mat.t, Mat.hsub, Mat.hmul, mathSig, mathSigPrime,
      Mat.map, Mat.hadd, Finset.sum_range_one]
    rw [hz, hs0, hsp0]
    norm_num

/-- back_prop_recursive pushes exactly one weight adjustment and one bias
adjustment per layer. -/
theorem bp_lengths : ∀ (layers : List NeuralNetworkLayer) (x e : Mat),
    (back_prop_rec layers x e).1.length = layers.length ∧
    (back_prop_rec layers x e).2.1.length = layers.length
  | [], _, _ => ⟨rfl, rfl⟩
  | L :: rest, x, e => by
    have ih := bp_lengths rest (mathSig ((L.weights.dot x).hadd L.biases)) e
    simp only [back_prop_rec, List.length_cons]
    exact ⟨by rw [ih.1], by rw [ih.2]⟩

/-- getD of an elementwise-added pair of lists, at an index in range of both. -/
theorem getD_zipWith_hadd : ∀ (a b : List Mat) (j : ℕ), j < a.length → j < b.length →
    (List.zipWith Mat.hadd a b).getD j dM = Mat.hadd (a.getD j dM) (b.getD j dM)
  | _ :: _, _ :: _, 0, _, _ => rfl
  | _ :: a', _ :: b', j + 1, ha, hb =>
    getD_zipWith_hadd a' b' j (Nat.succ_lt_succ_iff.mp ha) (Nat.succ_lt_succ_iff.mp hb)
  | [], _, _, ha, _ => absurd ha (by simp)
  | _ :: _, [], _, _, hb => absurd hb (by simp)

/-- getD of a mapped layer list, at an index in range. -/
theorem getD_map_mat (f : NeuralNetworkLayer → Mat) :
    ∀ (ls : List NeuralNetworkLayer) (j : ℕ), j < ls.length →
      (ls.map f).getD j dM = f (ls.getD j dL)
  | _ :: _, 0, _ => rfl
  | _ :: ls, j + 1, h => getD_map_mat f ls j (Nat.succ_lt_succ_iff.mp h)
  | [], _, h => absurd h (by simp)

/-- The accumulation loop of train preserves the lengths of both accumulator
lists (one entry per layer). -/
theorem foldl_acc_lengths (nn : NeuralNetwork) :
    ∀ (ps : List (Mat × Mat)) (acc : List Mat × List Mat),
      acc.1.length = nn.layers.length → acc.2.length = nn.layers.length →
      (ps.foldl (accumulate_step nn) acc).1.length = nn.layers.length ∧
      (ps.foldl (accumulate_step nn) acc).2.length = nn.layers.length
  | [], _, h1, h2 => ⟨h1, h2⟩
  | p :: ps, acc, h1, h2 =>
    foldl_acc_lengths nn ps (accumulate_step nn acc p)
      (by simp [accumulate_step, NeuralNetwork.back_propagate, h1,
        (bp_lengths nn.layers p.1 p.2).1])
      (by simp [accumulate_step, NeuralNetwork.back_propagate, h2,
        (bp_lengths nn.layers p.1 p.2).2])

/-- Each entry of the accumulators after the loop is the starting entry plus
the sum, over the batch, of the corresponding back_propagate adjustment
entry. -/
theorem foldl_acc_entry (nn : NeuralNetwork) (j i k : ℕ) :
    ∀ (ps : List (Mat × Mat)) (acc : List Mat × List Mat),
      acc.1.length = nn.layers.length → acc.2.length = nn.layers.length →
      j < nn.layers.length →
      (((ps.foldl (accumulate_step nn) acc).1.getD j dM).entry i k
          = (acc.1.getD j dM).entry i k
            + (ps.map fun p => ((nn.back_propagate p.1 p.2).1.getD j dM).entry i k).sum)
      ∧ (((ps.foldl (accumulate_step nn) acc).2.getD j dM).entry i k
          = (acc.2.getD j dM).entry i k
            + (ps.map fun p => ((nn.back_propagate p.1 p.2).2.getD j dM).entry i k).sum)
  | [], acc, _, _, _ => by simp
  | p :: ps, acc, h1, h2, hj => by
    have hst1 : (accumulate_step nn acc p).1.length = nn.layers.length := by
      simp [accumulate_step, NeuralNetwork.back_propagate, h1,
        (bp_lengths nn.layers p.1 p.2).1]
    have hst2 : (accumulate_step nn acc p).2.length = nn.layers.length := by
      simp [accumulate_step, NeuralNetwork.back_propagate, h2,
        (bp_lengths nn.layers p.1 p.2).2]
    have ih := foldl_acc_entry nn j i k ps (accumulate_step nn acc p) hst1 hst2 hj
    have hb1 : (accumulate_step nn acc p).1.getD j dM
        = Mat.hadd (acc.1.getD j dM) ((nn.back_propagate p.1 p.2).1.getD j dM) :=
      getD_zipWith_hadd acc.1 (nn.back_propagate p.1 p.2).1 j
        (by rw [h1]; exact hj)
        (by rw [show (nn.back_propagate p.1 p.2).1.length = nn.layers.length from
          (bp_lengths nn.layers p.1 p.2).1]; exact hj)
    have hb2 : (accumulate_step nn acc p).2.getD j dM
        = Mat.hadd (acc.2.getD j dM) ((nn.back_propagate p.1 p.2).2.getD j dM) :=
      getD_zipWith_hadd acc.2 (nn.back_propagate p.1 p.2).2 j
        (by rw [h2]; exact hj)
        (by rw [show (nn.back_propagate p.1 p.2).2.length = nn.layers.length from
          (bp_lengths nn.layers p.1 p.2).2]; exact hj)
    constructor
    · rw [List.foldl_cons, ih.1, hb1]
      dsimp only [Mat.hadd]
      rw [List.map_cons, List.sum_cons]
      ring
    · rw [List.foldl_cons, ih.2, hb2]
      dsimp only [Mat.hadd]
      rw [List.map_cons, List.sum_cons]
      ring

/-- add_weights_and_biases produces one layer per input layer when the
adjustment lists are long enough. -/
theorem awb_length : ∀ (ls : List NeuralNetworkLayer) (ws bs : List Mat) (n : ℝ),
    ls.length ≤ ws.length → ls.length ≤ bs.length →
    (add_weights_and_biases ls ws bs n).length = ls.length
  | [], ws, bs, _, _, _ => by cases ws <;> cases bs <;> rfl
  | L :: ls, w :: ws, b :: bs, n, h1, h2 => by
    simp only [add_weights_and_biases, List.length_cons]
    rw [awb_length ls ws bs n (by simpa using h1) (by simpa using h2)]
  | _ :: _, [], _, _, h1, _ => absurd h1 (by simp)
  | _ :: _, _ :: _, [], _, _, h2 => absurd h2 (by simp)

/-- The layer produced by add_weights_and_biases at each index: weights minus
(1/n) times the weight adjustment, biases minus (1/n) times the bias
adjustment. -/
theorem awb_getD : ∀ (ls : List NeuralNetworkLayer) (ws bs : List Mat) (n : ℝ) (j : ℕ),
    j < ls.length → ls.length ≤ ws.length → ls.length ≤ bs.length →
    (add_weights_and_biases ls ws bs n).getD j dL
      = NeuralNetworkLayer.mk
          ((ls.getD j dL).weights.hsub (Mat.smul (1 / n) (ws.getD j dM)))
          ((ls.getD j dL).biases.hsub (Mat.smul (1 / n) (bs.getD j dM)))
  | L :: ls, w :: ws, b :: bs, n, 0, _, _, _ => rfl
  | L :: ls, w :: ws, b :: bs, n, j + 1, hj, h1, h2 =>
    awb_getD ls ws bs n j (Nat.succ_lt_succ_iff.mp hj) (by simpa using h1) (by simpa using h2)
  | [], _, _, _, _, hj, _, _ => absurd hj (by simp)
  | _ :: _, [], _, _, _, _, h1, _ => absurd h1 (by simp)
  | _ :: _, _ :: _, [], _, _, _, _, h2 => absurd h2 (by simp)

/-- C5: for a nonempty batch of equal-length input/expected pairs, train
performs exactly one update: every layer's weight entry becomes the old entry
minus (1/N) times the sum over the batch of that layer's back_propagate weight
adjustment entry, and likewise for biases; the learning_rate field is carried
over unchanged and has no effect on the updated layers. -/
theorem train_batch_update (nn : NeuralNetwork) (inputs expected_outputs : List Mat)
    (hlen : inputs.length = expected_outputs.length) (hne : inputs ≠ []) :
    ∃ nn', nn.train inputs expected_outputs = some nn' ∧
      nn'.learning_rate = nn.learning_rate ∧
      nn'.layers.length = nn.layers.length ∧
      (∀ j, j < nn.layers.length → ∀ i k,
        ((nn'.layers.getD j dL).weights.entry i k
            = (nn.layers.getD j dL).weights.entry i k
              - 1 / (inputs.length : ℝ)
                * ((inputs.zip expected_outputs).map fun p =>
                    ((nn.back_propagate p.1 p.2).1.getD j dM).entry i k).sum)
        ∧ ((nn'.layers.getD j dL).biases.entry i k
            = (nn.layers.getD j dL).biases.entry i k
              - 1 / (inputs.length : ℝ)
                * ((inputs.zip expected_outputs).map fun p =>
                    ((nn.back_propagate p.1 p.2).2.getD j dM).entry i k).sum)) ∧
      (∀ r : ℝ,
        (NeuralNetwork.train { nn with learning_rate := r } inputs expected_outputs).map
            NeuralNetwork.layers
          = (nn.train inputs expected_outputs).map NeuralNetwork.layers) := by
  have hinit1 : (init_zeroed_adjustment_matrices nn).1.length = nn.layers.length := by
    simp [init_zeroed_adjustment_matrices]
  have hinit2 : (init_zeroed_adjustment_matrices nn).2.length = nn.layers.length := by
    simp [init_zeroed_adjustment_matrices]
  have hacc := foldl_acc_lengths nn (inputs.zip expected_outputs)
    (init_zeroed_adjustment_matrices nn) hinit1 hinit2
  refine ⟨{ nn with layers := (add_weights_and_biases nn.layers
      ((inputs.zip expected_outputs).foldl (accumulate_step nn)
        (init_zeroed_adjustment_matrices nn)).1
      ((inputs.zip expected_outputs).foldl (accumulate_step nn)
        (init_zeroed_adjustment_matrices nn)).2
      (inputs.length : ℝ)) }, ?_, rfl, ?_, ?_, ?_⟩
  · unfold NeuralNetwork.train
    rw [if_pos hlen]
  · exact awb_length nn.layers _ _ _ (le_of_eq hacc.1.symm) (le_of_eq hacc.2.symm)
  · intro j hj i k
    have hget := awb_getD nn.layers
      ((inputs.zip expected_outputs).foldl (accumulate_step nn)
        (init_zeroed_adjustment_matrices nn)).1
      ((inputs.zip expected_outputs).foldl (accumulate_step nn)
        (init_zeroed_adjustment_matrices nn)).2
      (inputs.length : ℝ) j hj (le_of_eq hacc.1.symm) (le_of_eq hacc.2.symm)
    have hent := foldl_acc_entry nn j i k (inputs.zip expected_outputs)
      (init_zeroed_adjustment_matrices nn) hinit1 hinit2 hj
    have hz1 : ((init_zeroed_adjustment_matrices nn).1.getD j dM).entry i k = 0 := by
      have h := getD_map_mat (fun L => Mat.zeros L.weights.rows L.weights.cols) nn.layers j hj
      show ((nn.layers.map fun L => Mat.zeros L.weights.rows L.weights.cols).getD j dM).entry i k
        = 0
      rw [h]
      rfl
    have hz2 : ((init_zeroed_adjustment_matrices nn).2.getD j dM).entry i k = 0 := by
      have h := getD_map_mat (fun L => Mat.zeros L.biases.rows L.biases.cols) nn.layers j hj
      show ((nn.layers.map fun L => Mat.zeros L.biases.rows L.biases.cols).getD j dM).entry i k
        = 0
      rw [h]
      rfl
    constructor
    · show ((add_weights_and_biases nn.layers _ _ _).getD j dL).weights.entry i k = _
      rw [hget]
      dsimp only [Mat.hsub, Mat.smul]
      rw [hent.1, hz1, zero_add]
    · show ((add_weights_and_biases nn.layers _ _ _).getD j dL).biases.entry i k = _
      rw [hget]
      dsimp only [Mat.hsub, Mat.smul]
      rw [hent.2, hz2, zero_add]
  · intro r
    unfold NeuralNetwork.train
    rw [if_pos hlen, if_pos hlen]
    rfl

/-- Witness for C5: the one-layer network nnA trained on the single pair
([[0]], [[1]]). -/
theorem train_batch_update_witness :
    ∃ nn', nnA.train [cMat 1 1 0] [cMat 1 1 1] = some nn' ∧
      nn'.learning_rate = nnA.learning_rate ∧
      nn'.layers.length = nnA.layers.length ∧
      (∀ j, j < nnA.layers.length → ∀ i k,
        ((nn'.layers.getD j dL).weights.entry i k
            = (nnA.layers.getD j dL).weights.entry i k
              - 1 / (([cMat 1 1 0] : List Mat).length : ℝ)
                * ((([cMat 1 1 0] : List Mat).zip [cMat 1 1 1]).map fun p =>
                    ((nnA.back_propagate p.1 p.2).1.getD j dM).entry i k).sum)
        ∧ ((nn'.layers.getD j dL).biases.entry i k
            = (nnA.layers.getD j dL).biases.entry i k
              - 1 / (([cMat 1 1 0] : List Mat).length : ℝ)
                * ((([cMat 1 1 0] : List Mat).zip [cMat 1 1 1]).map fun p =>
                    ((nnA.back_propagate p.1 p.2).2.getD j dM).entry i k).sum)) ∧
      (∀ r : ℝ,
        (NeuralNetwork.train { nnA with learning_rate := r } [cMat 1 1 0] [cMat 1 1 1]).map
            NeuralNetwork.layers
          = (nnA.train [cMat 1 1 0] [cMat 1 1 1]).map NeuralNetwork.layers) :=
  train_batch_update nnA [cMat 1 1 0] [cMat 1 1 1] rfl (by simp)

/-- C10: train on an equal-length batch returns a network with the same number
of layers, every layer keeping exactly the weight and bias dimensions it had
before the call. -/
theorem train_preserves_shapes (nn : NeuralNetwork) (inputs expected_outputs : List Mat)
    (hlen : inputs.length = expected_outputs.length) :
    ∃ nn', nn.train inputs expected_outputs = some nn' ∧
      nn'.layers.length = nn.layers.length ∧
      ∀ j, j < nn.layers.length →
        (nn'.layers.getD j dL).weights.rows = (nn.layers.getD j dL).weights.rows ∧
        (nn'.layers.getD j dL).weights.cols = (nn.layers.getD j dL).weights.cols ∧
        (nn'.layers.getD j dL).biases.rows = (nn.layers.getD j dL).biases.rows ∧
        (nn'.layers.getD j dL).biases.cols = (nn.layers.getD j dL).biases.cols := by
  have hinit1 : (init_zeroed_adjustment_matrices nn).1.length = nn.layers.length := by
    simp [init_zeroed_adjustment_matrices]
  have hinit2 : (init_zeroed_adjustment_matrices nn).2.length = nn.layers.length := by
    simp [init_zeroed_adjustment_matrices]
  have hacc := foldl_acc_lengths nn (inputs.zip expected_outputs)
    (init_zeroed_adjustment_matrices nn) hinit1 hinit2
  refine ⟨{ nn with layers := (add_weights_and_biases nn.layers
      ((inputs.zip expected_outputs).foldl (accumulate_step nn)
        (init_zeroed_adjustment_matrices nn)).1
      ((inputs.zip expected_outputs).foldl (accumulate_step nn)
        (init_zeroed_adjustment_matrices nn)).2
      (inputs.length : ℝ)) }, ?_, ?_, ?_⟩
  · unfold NeuralNetwork.train
    rw [if_pos hlen]
  · exact awb_length nn.layers _ _ _ (le_of_eq hacc.1.symm) (le_of_eq hacc.2.symm)
  · intro j hj
    have hget := awb_getD nn.layers
      ((inputs.zip expected_outputs).foldl (accumulate_step nn)
        (init_zeroed_adjustment_matrices nn)).1
      ((inputs.zip expected_outputs).foldl (accumulate_step nn)
        (init_zeroed_adjustment_matrices nn)).2
      (inputs.length : ℝ) j hj (le_of_eq hacc.1.symm) (le_of_eq hacc.2.symm)
    refine ⟨?_, ?_, ?_, ?_⟩
    · show ((add_weights_and_biases nn.layers _ _ _).getD j dL).weights.rows = _
      rw [hget]
      rfl
    · show ((add_weights_and_biases nn.layers _ _ _).getD j dL).weights.cols = _
      rw [hget]
      rfl
    · show ((add_weights_and_biases nn.layers _ _ _).getD j dL).biases.rows = _
      rw [hget]
      rfl
    · show ((add_weights_and_biases nn.layers _ _ _).getD j dL).biases.cols = _
      rw [hget]
      rfl

/-- Witness for C10: nnA trained on the single pair ([[0]], [[1]]) keeps its
1×1 weight and bias shapes. -/
theorem train_preserves_shapes_witness :
    ∃ nn', nnA.train [cMat 1 1 0] [cMat 1 1 1] = some nn' ∧
      nn'.layers.length = nnA.layers.length ∧
      ∀ j, j < nnA.layers.length →
        (nn'.layers.getD j dL).weights.rows = (nnA.layers.getD j dL).weights.rows ∧
        (nn'.layers.getD j dL).weights.cols = (nnA.layers.getD j dL).weights.cols ∧
        (nn'.layers.getD j dL).biases.rows = (nnA.layers.getD j dL).biases.rows ∧
        (nn'.layers.getD j dL).biases.cols = (nnA.layers.getD j dL).biases.cols :=
  train_preserves_shapes nnA [cMat 1 1 0] [cMat 1 1 1] rfl

end

end Mlrust
